import Mathlib

/-!
Verification of the territory-assignment store of `gtmterritorymaker`.

The TypeScript source keeps assignments in a plain JS object
`{ [stateCode]: { repName, assignedAt } }`; we embed such objects as
key-ordered entry lists `List (String × α)` (JS objects never hold a
duplicate key; property writes update in place, new keys append at the
end, `Object.entries` returns the entries in that order).  Timestamps
(`new Date().toISOString()`) are passed in explicitly as strings.
-/

/-- `Assignment` from `src/types/index.ts`: `{ repName: string, assignedAt: string }`. -/
structure Assignment where
  repName : String
  assignedAt : String
deriving DecidableEq, Repr

/-- `TerritoryAssignments` from `src/types/index.ts`, embedded as an entry list. -/
abbrev TerritoryAssignments := List (String × Assignment)

/-- Reading a property of a JS object (`m[k]`, `undefined` becomes `none`). -/
def getKey : List (String × α) → String → Option α
  | [], _ => none
  | p :: t, k => if p.1 == k then some p.2 else getKey t k

/-- Writing a property of a JS object (`m[k] = v`): update the existing
entry in place, or append a fresh one at the end. -/
def setKey (m : List (String × α)) (k : String) (v : α) : List (String × α) :=
  match m with
  | [] => [(k, v)]
  | p :: t => if p.1 == k then (k, v) :: t else p :: setKey t k v

/-- Deleting a property of a JS object (`delete m[k]`). -/
def delKey (m : List (String × α)) (k : String) : List (String × α) :=
  m.filter (fun p => p.1 != k)

/-- A JS object has no duplicate keys; our entry lists carry that as a side condition. -/
def KeysNodup (m : List (String × α)) : Prop :=
  (m.map Prod.fst).Nodup

instance (m : List (String × α)) : Decidable (KeysNodup m) := by
  unfold KeysNodup; infer_instance

/-- `MAX_HISTORY` from `useAssignments.ts`. -/
def MAX_HISTORY : Nat := 50

/-- `arr.slice(-n)`: the last `n` elements (the whole list when it is shorter). -/
def takeLast (n : Nat) (l : List α) : List α :=
  l.drop (l.length - n)

/-- `HistoryState` from `useAssignments.ts`. -/
structure HistoryState where
  past : List TerritoryAssignments
  present : TerritoryAssignments
  future : List TerritoryAssignments
deriving DecidableEq, Repr

/-- `pushState` from `useAssignments.ts`:
`{ past: [...prev.past, prev.present].slice(-MAX_HISTORY), present: newPresent, future: [] }`. -/
def pushState (h : HistoryState) (newPresent : TerritoryAssignments) : HistoryState :=
  { past := takeLast MAX_HISTORY (h.past ++ [h.present])
    present := newPresent
    future := [] }

/-- `setAssignment` from `useAssignments.ts`; `ts` is the fresh ISO timestamp. -/
def setAssignment (h : HistoryState) (code repName ts : String) : HistoryState :=
  pushState h (setKey h.present code ⟨repName, ts⟩)

/-- `removeAssignment` from `useAssignments.ts`. -/
def removeAssignment (h : HistoryState) (code : String) : HistoryState :=
  pushState h (delKey h.present code)

/-- `bulkAssign` from `useAssignments.ts`: one shared timestamp, one push. -/
def bulkAssign (h : HistoryState) (codes : List String) (repName ts : String) : HistoryState :=
  pushState h (codes.foldl (fun m c => setKey m c ⟨repName, ts⟩) h.present)

/-- `syncRepAssignments` from `useAssignments.ts`: drop this rep's entries that are
not in `newCodes` (the `Set.has` test is list membership), then upsert every code
in `newCodes` with a fresh shared timestamp. -/
def syncRepAssignments (h : HistoryState) (repName : String) (newCodes : List String)
    (ts : String) : HistoryState :=
  let afterRemove :=
    h.present.filter (fun p => !(p.2.repName == repName && !(newCodes.contains p.1)))
  pushState h (newCodes.foldl (fun m c => setKey m c ⟨repName, ts⟩) afterRemove)

/-- `updateRepName` from `useAssignments.ts`: rewrite matching entries, push only
when at least one entry matched (`hasChanges`). -/
def updateRepName (h : HistoryState) (oldName newName : String) : HistoryState :=
  let hasChanges := h.present.any (fun p => p.2.repName == oldName)
  let next := h.present.map (fun p =>
    if p.2.repName == oldName then (p.1, ⟨newName, p.2.assignedAt⟩) else p)
  if hasChanges then pushState h next else h

/-- `clearAll` from `useAssignments.ts`. -/
def clearAll (h : HistoryState) : HistoryState :=
  pushState h []

/-- `importAssignments` from `useAssignments.ts`. -/
def importAssignments (h : HistoryState) (data : TerritoryAssignments) : HistoryState :=
  pushState h data

/-- `undo` from `useAssignments.ts`. -/
def undo (h : HistoryState) : HistoryState :=
  match h.past.getLast? with
  | none => h
  | some previous =>
    { past := h.past.dropLast
      present := previous
      future := h.present :: h.future }

/-- `redo` from `useAssignments.ts`.  Note: unlike `pushState`, the source does
not re-truncate `past` here. -/
def redo (h : HistoryState) : HistoryState :=
  match h.future with
  | [] => h
  | next :: rest =>
    { past := h.past ++ [h.present]
      present := next
      future := rest }

/-- `canUndo` from `useAssignments.ts` (`history.past.length > 0`). -/
def canUndo (h : HistoryState) : Bool :=
  decide (h.past.length > 0)

/-- `canRedo` from `useAssignments.ts` (`history.future.length > 0`). -/
def canRedo (h : HistoryState) : Bool :=
  decide (h.future.length > 0)

/-- The mutating operations of the store, with their timestamp inputs made explicit. -/
inductive Op where
  | set (code repName ts : String)
  | remove (code : String)
  | bulk (codes : List String) (repName ts : String)
  | sync (repName : String) (newCodes : List String) (ts : String)
  | rename (oldName newName : String)
  | clear
  | importA (data : TerritoryAssignments)
deriving DecidableEq, Repr

/-- Dispatch one mutating operation. -/
def applyOp (h : HistoryState) : Op → HistoryState
  | .set code repName ts => setAssignment h code repName ts
  | .remove code => removeAssignment h code
  | .bulk codes repName ts => bulkAssign h codes repName ts
  | .sync repName newCodes ts => syncRepAssignments h repName newCodes ts
  | .rename oldName newName => updateRepName h oldName newName
  | .clear => clearAll h
  | .importA data => importAssignments h data

/-- Whether the operation pushes a new present in state `h`: every operation does,
except `updateRepName` when no entry carries the old name. -/
def opPushes (h : HistoryState) : Op → Bool
  | .rename oldName _ => h.present.any (fun p => p.2.repName == oldName)
  | _ => true

/-- Apply a whole sequence of mutating operations. -/
def applyOps (h : HistoryState) (ops : List Op) : HistoryState :=
  ops.foldl applyOp h

/-- Every operation of the sequence pushes at the point where it runs. -/
def allPush : HistoryState → List Op → Bool
  | _, [] => true
  | h, op :: rest => opPushes h op && allPush (applyOp h op) rest

/-- The present value right before each operation of the sequence runs
(the prior states, oldest first). -/
def trajPriors : HistoryState → List Op → List TerritoryAssignments
  | _, [] => []
  | h, op :: rest => h.present :: trajPriors (applyOp h op) rest

/-- The store's initial history (`past`/`future` empty, `present` loaded from storage). -/
def initHistory (p : TerritoryAssignments) : HistoryState :=
  { past := [], present := p, future := [] }

example :
    (applyOps (initHistory []) [.bulk ["CA", "TX"] "Alice" "t1",
      .sync "Alice" ["CA", "NY"] "t2"]).present =
    [("CA", ⟨"Alice", "t2"⟩), ("NY", ⟨"Alice", "t2"⟩)] := by decide

example :
    (undo (applyOps (initHistory []) [.bulk ["CA", "TX"] "Alice" "t1",
      .sync "Alice" ["CA", "NY"] "t2"])).present =
    [("CA", ⟨"Alice", "t1"⟩), ("TX", ⟨"Alice", "t1"⟩)] := by decide

/-! ### Lemmas about JS-object reads, writes, deletes and filters -/

theorem getKey_setKey_self (m : List (String × α)) (k : String) (v : α) :
    getKey (setKey m k v) k = some v := by
  induction m with
  | nil => simp [setKey, getKey]
  | cons p t ih =>
    by_cases hb : p.1 = k
    · simp [setKey, getKey, hb]
    · have hb' : (p.1 == k) = false := beq_eq_false_iff_ne.mpr hb
      simp [setKey, getKey, hb', ih]

theorem getKey_setKey_ne (m : List (String × α)) (k k' : String) (v : α) (h : k' ≠ k) :
    getKey (setKey m k v) k' = getKey m k' := by
  have hkk : (k == k') = false := beq_eq_false_iff_ne.mpr (Ne.symm h)
  induction m with
  | nil => simp [setKey, getKey, hkk]
  | cons p t ih =>
    by_cases hb : p.1 = k
    · have hb' : (p.1 == k') = false := beq_eq_false_iff_ne.mpr (hb ▸ Ne.symm h)
      simp [setKey, getKey, hb, hkk, hb']
    · have hb' : (p.1 == k) = false := beq_eq_false_iff_ne.mpr hb
      by_cases hc : p.1 = k'
      · have hc' : (p.1 == k') = true := beq_iff_eq.mpr hc
        simp [setKey, getKey, hb', hc']
      · have hc' : (p.1 == k') = false := beq_eq_false_iff_ne.mpr hc
        simp [setKey, getKey, hb', hc', ih]

theorem getKey_foldl_setKey_of_not_mem (codes : List String) (m : List (String × α))
    (v : α) (c : String) (hc : c ∉ codes) :
    getKey (codes.foldl (fun m' c' => setKey m' c' v) m) c = getKey m c := by
  induction codes generalizing m with
  | nil => rfl
  | cons d t ih =>
    simp only [List.foldl_cons]
    have hcd : c ≠ d := fun h => hc (h ▸ List.mem_cons_self d t)
    rw [ih (setKey m d v) (fun h => hc (List.mem_cons_of_mem d h)),
      getKey_setKey_ne m d c v hcd]

theorem getKey_foldl_setKey_of_mem (codes : List String) (m : List (String × α))
    (v : α) (c : String) (hc : c ∈ codes) :
    getKey (codes.foldl (fun m' c' => setKey m' c' v) m) c = some v := by
  induction codes generalizing m with
  | nil => cases hc
  | cons d t ih =>
    simp only [List.foldl_cons]
    by_cases hct : c ∈ t
    · exact ih (setKey m d v) hct
    · have hcd : c = d := by
        rcases List.mem_cons.mp hc with h | h
        · exact h
        · exact absurd h hct
      rw [getKey_foldl_setKey_of_not_mem t (setKey m d v) v c hct, hcd,
        getKey_setKey_self]

theorem getKey_filter_of_pos (m : List (String × α)) (p : String × α → Bool)
    (k : String) (v : α) (hk : getKey m k = some v) (hp : p (k, v) = true) :
    getKey (m.filter p) k = some v := by
  induction m with
  | nil => cases hk
  | cons q t ih =>
    by_cases hb : q.1 = k
    · have hb' : (q.1 == k) = true := beq_iff_eq.mpr hb
      have hv : v = q.2 := by
        simp [getKey, hb'] at hk
        exact hk.symm
      have hq : q = (k, v) := by
        cases q
        simp_all
      rw [hq] at *
      simp [List.filter, hp, getKey]
    · have hb' : (q.1 == k) = false := beq_eq_false_iff_ne.mpr hb
      have hk' : getKey t k = some v := by simpa [getKey, hb'] using hk
      cases hpq : p q with
      | true => simp [List.filter, hpq, getKey, hb', ih hk']
      | false => simp [List.filter, hpq, ih hk']

theorem getKey_eq_none_of_not_mem_keys (m : List (String × α)) (k : String)
    (h : k ∉ m.map Prod.fst) : getKey m k = none := by
  induction m with
  | nil => rfl
  | cons q t ih =>
    have hb : (q.1 == k) = false := by
      refine beq_eq_false_iff_ne.mpr (fun he => h ?_)
      simp [he]
    have ht : k ∉ t.map Prod.fst := fun hm => h (by simp [hm])
    simp [getKey, hb, ih ht]

theorem getKey_filter_of_none (m : List (String × α)) (p : String × α → Bool)
    (k : String) (hk : getKey m k = none) : getKey (m.filter p) k = none := by
  induction m with
  | nil => rfl
  | cons q t ih =>
    by_cases hb : q.1 = k
    · have hb' : (q.1 == k) = true := beq_iff_eq.mpr hb
      simp [getKey, hb'] at hk
    · have hb' : (q.1 == k) = false := beq_eq_false_iff_ne.mpr hb
      have hk' : getKey t k = none := by simpa [getKey, hb'] using hk
      cases hpq : p q with
      | true => simp [List.filter, hpq, getKey, hb', ih hk']
      | false => simp [List.filter, hpq, ih hk']

theorem getKey_filter_of_neg (m : List (String × α)) (p : String × α → Bool)
    (k : String) (v : α) (hnd : KeysNodup m) (hk : getKey m k = some v)
    (hp : p (k, v) = false) : getKey (m.filter p) k = none := by
  induction m with
  | nil => cases hk
  | cons q t ih =>
    have hnd' : q.1 ∉ t.map Prod.fst ∧ KeysNodup t := by
      simpa [KeysNodup] using hnd
    by_cases hb : q.1 = k
    · have hb' : (q.1 == k) = true := beq_iff_eq.mpr hb
      have hv : v = q.2 := by
        simp [getKey, hb'] at hk
        exact hk.symm
      have hq : q = (k, v) := by cases q; simp_all
      have ht : getKey t k = none :=
        getKey_eq_none_of_not_mem_keys t k (hb ▸ hnd'.1)
      rw [hq] at *
      simp [List.filter, hp, getKey_filter_of_none t p k ht]
    · have hb' : (q.1 == k) = false := beq_eq_false_iff_ne.mpr hb
      have hk' : getKey t k = some v := by simpa [getKey, hb'] using hk
      cases hpq : p q with
      | true => simp [List.filter, hpq, getKey, hb', ih hnd'.2 hk']
      | false => simp [List.filter, hpq, ih hnd'.2 hk']

theorem getKey_filter_pred (m : List (String × α)) (p : String × α → Bool)
    (k : String) (v : α) (h : getKey (m.filter p) k = some v) : p (k, v) = true := by
  induction m with
  | nil => cases h
  | cons q t ih =>
    cases hpq : p q with
    | true =>
      by_cases hb : q.1 = k
      · have hb' : (q.1 == k) = true := beq_iff_eq.mpr hb
        have hv : v = q.2 := by
          simp [List.filter, hpq, getKey, hb'] at h
          exact h.symm
        have hq : q = (k, v) := by cases q; simp_all
        rw [← hq, hpq]
      · have hb' : (q.1 == k) = false := beq_eq_false_iff_ne.mpr hb
        refine ih ?_
        simpa [List.filter, hpq, getKey, hb'] using h
    | false =>
      refine ih ?_
      simpa [List.filter, hpq] using h

theorem delKey_of_getKey_none (m : List (String × α)) (c : String)
    (h : getKey m c = none) : delKey m c = m := by
  induction m with
  | nil => rfl
  | cons q t ih =>
    by_cases hb : q.1 = c
    · have hb' : (q.1 == c) = true := beq_iff_eq.mpr hb
      simp [getKey, hb'] at h
    · have hb' : (q.1 == c) = false := beq_eq_false_iff_ne.mpr hb
      have h' : getKey t c = none := by simpa [getKey, hb'] using h
      have hq : (q.1 != c) = true := by simp [bne, hb']
      have ht : List.filter (fun p => p.1 != c) t = t := ih h'
      simp [delKey, List.filter_cons, hq, ht]

/-! ### Lemmas about the history machine -/

theorem undo_of_past_nil (h : HistoryState) (hp : h.past = []) : undo h = h := by
  simp [undo, hp]

theorem redo_of_future_nil (h : HistoryState) (hf : h.future = []) : redo h = h := by
  simp [redo, hf]

theorem undo_iterate_of_past_nil (h : HistoryState) (k : Nat) (hp : h.past = []) :
    undo^[k] h = h := by
  induction k with
  | zero => rfl
  | succ k ih => rw [Function.iterate_succ_apply, undo_of_past_nil h hp, ih]

theorem redo_iterate_of_future_nil (h : HistoryState) (k : Nat) (hf : h.future = []) :
    redo^[k] h = h := by
  induction k with
  | zero => rfl
  | succ k ih => rw [Function.iterate_succ_apply, redo_of_future_nil h hf, ih]

theorem undo_concat (t : List TerritoryAssignments) (a : TerritoryAssignments)
    (present : TerritoryAssignments) (future : List TerritoryAssignments) :
    undo ⟨t ++ [a], present, future⟩ = ⟨t, a, present :: future⟩ := by
  simp [undo, List.getLast?_concat, List.dropLast_concat]

theorem redo_undo (h : HistoryState) (hne : h.past ≠ []) : redo (undo h) = h := by
  obtain ⟨past, present, future⟩ := h
  rcases List.eq_nil_or_concat past with hnil | ⟨t, a, rfl⟩
  · exact absurd hnil hne
  · simp only [List.concat_eq_append]
    rw [undo_concat]
    simp [redo]

/-- Along a path with no pending redo states, `k` undos followed by `k` redos
restore the history state exactly (excess undos and redos are no-ops). -/
theorem redo_iterate_undo_iterate (k : Nat) (h : HistoryState) (hf : h.future = []) :
    redo^[k] (undo^[k] h) = h := by
  induction k with
  | zero => rfl
  | succ k ih =>
    by_cases hp : (undo^[k] h).past = []
    · rw [Function.iterate_succ_apply' undo, undo_of_past_nil _ hp,
        Function.iterate_succ_apply' redo, ih, redo_of_future_nil h hf]
    · rw [Function.iterate_succ_apply' undo, Function.iterate_succ_apply redo,
        redo_undo _ hp, ih]

theorem takeLast_of_length_le (n : Nat) (l : List α) (h : l.length ≤ n) :
    takeLast n l = l := by
  unfold takeLast
  rw [Nat.sub_eq_zero_of_le h, List.drop_zero]

theorem takeLast_length (n : Nat) (l : List α) :
    (takeLast n l).length = min n l.length := by
  unfold takeLast
  rw [List.length_drop]
  omega

theorem take_append_take (n : Nat) (a b : List α) :
    (a ++ b.take n).take n = (a ++ b).take n := by
  rw [List.take_append_eq_append_take, List.take_append_eq_append_take, List.take_take,
    Nat.min_eq_left (Nat.sub_le n a.length)]

theorem takeLast_eq_reverse_take (n : Nat) (l : List α) :
    takeLast n l = (l.reverse.take n).reverse := by
  unfold takeLast
  rcases Nat.le_total l.length n with h | h
  · rw [Nat.sub_eq_zero_of_le h, List.drop_zero, List.take_of_length_le (by simpa using h),
      List.reverse_reverse]
  · rw [← List.reverse_reverse (l.drop (l.length - n))]
    congr 1
    rw [List.reverse_drop]
    congr 1
    omega

theorem takeLast_append_takeLast (n : Nat) (l l' : List α) :
    takeLast n (takeLast n l ++ l') = takeLast n (l ++ l') := by
  rw [takeLast_eq_reverse_take n (takeLast n l ++ l'), takeLast_eq_reverse_take n l,
    takeLast_eq_reverse_take n (l ++ l')]
  congr 1
  rw [List.reverse_append, List.reverse_reverse, List.reverse_append, take_append_take]

theorem allPush_cons (h : HistoryState) (op : Op) (rest : List Op)
    (hall : allPush h (op :: rest) = true) :
    opPushes h op = true ∧ allPush (applyOp h op) rest = true := by
  simpa [allPush, Bool.and_eq_true] using hall

theorem applyOps_cons (h : HistoryState) (op : Op) (rest : List Op) :
    applyOps h (op :: rest) = applyOps (applyOp h op) rest := rfl

theorem applyOp_eq_pushState (h : HistoryState) (op : Op) (hp : opPushes h op = true) :
    ∃ next, applyOp h op = pushState h next := by
  cases op with
  | set code repName ts => exact ⟨_, rfl⟩
  | remove code => exact ⟨_, rfl⟩
  | bulk codes repName ts => exact ⟨_, rfl⟩
  | sync repName newCodes ts => exact ⟨_, rfl⟩
  | clear => exact ⟨_, rfl⟩
  | importA data => exact ⟨_, rfl⟩
  | rename oldName newName =>
    have hc : h.present.any (fun p => p.2.repName == oldName) = true := hp
    exact ⟨h.present.map (fun p =>
        if p.2.repName == oldName then (p.1, ⟨newName, p.2.assignedAt⟩) else p),
      by simp only [applyOp, updateRepName, hc, if_true]⟩

theorem applyOp_pushes_future (h : HistoryState) (op : Op) (hp : opPushes h op = true) :
    (applyOp h op).future = [] := by
  obtain ⟨next, heq⟩ := applyOp_eq_pushState h op hp
  rw [heq]
  rfl

theorem applyOp_pushes_past (h : HistoryState) (op : Op) (hp : opPushes h op = true) :
    (applyOp h op).past = takeLast MAX_HISTORY (h.past ++ [h.present]) := by
  obtain ⟨next, heq⟩ := applyOp_eq_pushState h op hp
  rw [heq]
  rfl

theorem applyOps_future_nil (ops : List Op) (h : HistoryState) (hne : ops ≠ [])
    (hall : allPush h ops = true) : (applyOps h ops).future = [] := by
  induction ops generalizing h with
  | nil => exact absurd rfl hne
  | cons op rest ih =>
    obtain ⟨hop, hrest⟩ := allPush_cons h op rest hall
    cases rest with
    | nil =>
      rw [applyOps_cons]
      exact applyOp_pushes_future h op hop
    | cons op' rest' =>
      rw [applyOps_cons]
      exact ih (applyOp h op) (by simp) hrest

theorem applyOps_past_formula (ops : List Op) (h : HistoryState)
    (hall : allPush h ops = true) (hlen : h.past.length ≤ MAX_HISTORY) :
    (applyOps h ops).past = takeLast MAX_HISTORY (h.past ++ trajPriors h ops) := by
  induction ops generalizing h with
  | nil =>
    simp only [applyOps, List.foldl_nil, trajPriors, List.append_nil]
    rw [takeLast_of_length_le _ _ hlen]
  | cons op rest ih =>
    obtain ⟨hop, hrest⟩ := allPush_cons h op rest hall
    have hpast := applyOp_pushes_past h op hop
    have hlen' : (applyOp h op).past.length ≤ MAX_HISTORY := by
      rw [hpast, takeLast_length]
      omega
    rw [applyOps_cons, ih (applyOp h op) hrest hlen', hpast,
      takeLast_append_takeLast]
    show takeLast MAX_HISTORY ((h.past ++ [h.present]) ++ trajPriors (applyOp h op) rest) = _
    rw [List.append_assoc]
    rfl

theorem trajPriors_length (ops : List Op) (h : HistoryState) :
    (trajPriors h ops).length = ops.length := by
  induction ops generalizing h with
  | nil => rfl
  | cons op rest ih => simp [trajPriors, ih]

theorem undo_iterate_present (i : Nat) (h : HistoryState) (hi : i < h.past.length) :
    (undo^[i + 1] h).present = h.past.reverse.getD i [] := by
  induction i generalizing h with
  | zero =>
    obtain ⟨past, present, future⟩ := h
    rcases List.eq_nil_or_concat past with rfl | ⟨t, a, rfl⟩
    · simp at hi
    · simp only [List.concat_eq_append]
      rw [Function.iterate_succ_apply, Function.iterate_zero_apply, undo_concat]
      simp
  | succ i ih =>
    obtain ⟨past, present, future⟩ := h
    rcases List.eq_nil_or_concat past with rfl | ⟨t, a, rfl⟩
    · simp at hi
    · simp only [List.concat_eq_append] at hi ⊢
      have hlen : i < t.length := by
        simp only [List.length_append, List.length_cons, List.length_nil] at hi
        omega
      rw [Function.iterate_succ_apply, undo_concat]
      have := ih ⟨t, a, present :: future⟩ hlen
      simp only at this
      rw [this]
      rw [List.reverse_append]
      simp

theorem contains_eq_false_of_not_mem (D : List String) (c : String) (hc : c ∉ D) :
    D.contains c = false := by
  simpa using hc

theorem getD_take (l : List α) (n i : Nat) (d : α) (h : i < n) :
    (l.take n).getD i d = l.getD i d := by
  simp only [List.getD]
  rw [List.get?_eq_getElem?, List.get?_eq_getElem?, List.getElem?_take]
  simp [h]

theorem getKey_map_snd (g : α → β) (m : List (String × α)) (c : String) :
    getKey (m.map (fun p => (p.1, g p.2))) c = (getKey m c).map g := by
  induction m with
  | nil => rfl
  | cons q t ih =>
    cases hb : (q.1 == c) with
    | true => simp [getKey, hb]
    | false => simp [getKey, hb, ih]

theorem getKey_map_rename (m : TerritoryAssignments) (oldName newName c : String) :
    getKey (m.map (fun p =>
      if p.2.repName == oldName then (p.1, ⟨newName, p.2.assignedAt⟩) else p)) c =
    (getKey m c).map (fun a =>
      if a.repName = oldName then ⟨newName, a.assignedAt⟩ else a) := by
  have hfun : (fun (p : String × Assignment) =>
      if p.2.repName == oldName then (p.1, (⟨newName, p.2.assignedAt⟩ : Assignment)) else p) =
      fun p => (p.1,
        if p.2.repName = oldName then ⟨newName, p.2.assignedAt⟩ else p.2) := by
    funext p
    by_cases hr : p.2.repName = oldName
    · simp [hr]
    · simp [hr]
  rw [hfun]
  exact getKey_map_snd
    (fun a => if a.repName = oldName then ⟨newName, a.assignedAt⟩ else a) m c

/-- A concrete store state used by the witnesses: `CA` belongs to Bob,
`TX` to Alice. -/
def demoHistory : HistoryState :=
  ⟨[], [("CA", ⟨"Bob", "t0"⟩), ("TX", ⟨"Alice", "t0"⟩)], []⟩

/-! ### The claims -/

/-- C1: after `syncRepAssignments(R, D)` the set of codes owned by `R` is exactly
the set of elements of `D` — every code of `D` maps to `{repName: R, assignedAt: ts}`
(regardless of its previous owner), every code previously owned by `R` but not in
`D` is gone, and no code outside `D` is owned by `R`. -/
theorem sync_owned_exact (h : HistoryState) (R : String) (D : List String) (ts : String)
    (hnd : KeysNodup h.present) :
    (∀ c ∈ D, getKey (syncRepAssignments h R D ts).present c = some ⟨R, ts⟩) ∧
    (∀ c a, getKey h.present c = some a → a.repName = R → c ∉ D →
      getKey (syncRepAssignments h R D ts).present c = none) ∧
    (∀ c a, getKey (syncRepAssignments h R D ts).present c = some a → a.repName = R →
      c ∈ D) := by
  have hpres : (syncRepAssignments h R D ts).present =
      D.foldl (fun m c => setKey m c ⟨R, ts⟩)
        (h.present.filter (fun p => !(p.2.repName == R && !(D.contains p.1)))) := rfl
  refine ⟨?_, ?_, ?_⟩
  · intro c hc
    rw [hpres]
    exact getKey_foldl_setKey_of_mem D _ _ c hc
  · intro c a hget hrep hc
    rw [hpres, getKey_foldl_setKey_of_not_mem D _ _ c hc]
    refine getKey_filter_of_neg _ _ _ _ hnd hget ?_
    have h1 : (a.repName == R) = true := beq_iff_eq.mpr hrep
    simp [h1, hc]
  · intro c a hget hrep
    by_contra hc
    rw [hpres, getKey_foldl_setKey_of_not_mem D _ _ c hc] at hget
    have hpred := getKey_filter_pred _ _ _ _ hget
    have h1 : (a.repName == R) = true := beq_iff_eq.mpr hrep
    have h2 : (D.contains c) = false := contains_eq_false_of_not_mem D c hc
    rw [h1, h2] at hpred
    simp at hpred

theorem sync_owned_exact_witness :
    getKey (syncRepAssignments demoHistory "Alice" ["CA", "NY"] "t2").present "CA" =
      some ⟨"Alice", "t2"⟩ ∧
    getKey (syncRepAssignments demoHistory "Alice" ["CA", "NY"] "t2").present "TX" =
      none :=
  ⟨(sync_owned_exact demoHistory "Alice" ["CA", "NY"] "t2" (by decide)).1 "CA" (by decide),
   (sync_owned_exact demoHistory "Alice" ["CA", "NY"] "t2" (by decide)).2.1 "TX"
     ⟨"Alice", "t0"⟩ (by decide) rfl (by decide)⟩

/-- C2: `syncRepAssignments(R, D)` leaves every entry of a different representative
`R2` whose code is not in `D` entirely unchanged (same `repName`, same `assignedAt`). -/
theorem sync_frame_other_reps (h : HistoryState) (R R2 : String) (D : List String)
    (ts : String) (c : String) (a : Assignment)
    (hget : getKey h.present c = some a) (hrep : a.repName = R2) (hne : R2 ≠ R)
    (hc : c ∉ D) :
    getKey (syncRepAssignments h R D ts).present c = some a := by
  have hpres : (syncRepAssignments h R D ts).present =
      D.foldl (fun m c => setKey m c ⟨R, ts⟩)
        (h.present.filter (fun p => !(p.2.repName == R && !(D.contains p.1)))) := rfl
  rw [hpres, getKey_foldl_setKey_of_not_mem D _ _ c hc]
  refine getKey_filter_of_pos _ _ _ _ hget ?_
  have h1 : (a.repName == R) = false := beq_eq_false_iff_ne.mpr (hrep ▸ hne)
  simp [h1]

theorem sync_frame_other_reps_witness :
    getKey (syncRepAssignments demoHistory "Alice" ["NY"] "t2").present "CA" =
      some ⟨"Bob", "t0"⟩ :=
  sync_frame_other_reps demoHistory "Alice" "Bob" ["NY"] "t2" "CA" ⟨"Bob", "t0"⟩
    (by decide) rfl (by decide) (by decide)

/-- C3: for any initial state and any sequence of mutations that each push a new
present, `k` undos followed by `k` redos restore the present value exactly
(bit-for-bit, timestamps included — `present` is stored, never regenerated), the
excess undos and redos beyond the history being no-ops. -/
theorem undo_redo_exact_inverse (h0 : HistoryState) (ops : List Op)
    (hall : allPush h0 ops = true) (hne : ops ≠ []) :
    (redo^[ops.length] (undo^[ops.length] (applyOps h0 ops))).present =
      (applyOps h0 ops).present := by
  rw [redo_iterate_undo_iterate _ _ (applyOps_future_nil ops h0 hne hall)]

theorem undo_redo_exact_inverse_witness :
    (redo^[2] (undo^[2] (applyOps (initHistory [])
        [Op.set "CA" "A" "t1", Op.set "TX" "B" "t2"]))).present =
      (applyOps (initHistory []) [Op.set "CA" "A" "t1", Op.set "TX" "B" "t2"]).present :=
  undo_redo_exact_inverse (initHistory []) [Op.set "CA" "A" "t1", Op.set "TX" "B" "t2"]
    (by decide) (by decide)

/-- C4: starting from a fresh store, after any sequence of `N > 50` pushing
mutations `past` holds at most `MAX_HISTORY = 50` entries — exactly the last 50
prior present states, oldest evicted first — and the `i`-th state recoverable by
repeated `undo` is the `i`-th most recent prior present state. -/
theorem history_bound (p0 : TerritoryAssignments) (ops : List Op)
    (hall : allPush (initHistory p0) ops = true) (hN : 50 < ops.length) :
    (applyOps (initHistory p0) ops).past.length ≤ 50 ∧
    (applyOps (initHistory p0) ops).past =
      takeLast MAX_HISTORY (trajPriors (initHistory p0) ops) ∧
    (∀ i, i < 50 →
      (undo^[i + 1] (applyOps (initHistory p0) ops)).present =
        (trajPriors (initHistory p0) ops).reverse.getD i []) := by
  have hpast := applyOps_past_formula ops (initHistory p0) hall (by simp [initHistory])
  rw [show (initHistory p0).past = [] from rfl, List.nil_append] at hpast
  refine ⟨?_, hpast, ?_⟩
  · rw [hpast, takeLast_length]
    have : MAX_HISTORY = 50 := rfl
    omega
  · intro i hi
    have hlen : (applyOps (initHistory p0) ops).past.length = 50 := by
      rw [hpast, takeLast_length, trajPriors_length]
      have : MAX_HISTORY = 50 := rfl
      omega
    have hup := undo_iterate_present i _ (by rw [hlen]; exact hi)
    rw [hup, hpast, takeLast_eq_reverse_take, List.reverse_reverse]
    exact getD_take _ _ _ _ (by have : MAX_HISTORY = 50 := rfl; omega)

/-- 51 pushing operations in a row, for the `history_bound` witness. -/
def opsLong : List Op := List.replicate 51 Op.clear

theorem history_bound_witness :
    (applyOps (initHistory []) opsLong).past.length ≤ 50 ∧
    (undo^[0 + 1] (applyOps (initHistory []) opsLong)).present =
      (trajPriors (initHistory []) opsLong).reverse.getD 0 [] :=
  ⟨(history_bound [] opsLong (by decide) (by decide)).1,
   (history_bound [] opsLong (by decide) (by decide)).2.2 0 (by decide)⟩

/-- C5: every mutating operation that pushes (all of them unconditionally, and
`updateRepName` exactly when some entry carries the old name) replaces `future`
with the empty list, so `canRedo` is false immediately afterwards. -/
theorem push_clears_future (h : HistoryState) (op : Op) (hp : opPushes h op = true) :
    (applyOp h op).future = [] ∧ canRedo (applyOp h op) = false := by
  have hf := applyOp_pushes_future h op hp
  exact ⟨hf, by simp [canRedo, hf]⟩

theorem push_clears_future_witness :
    (applyOp ⟨[], [], [[("CA", ⟨"A", "t"⟩)]]⟩ Op.clear).future = [] ∧
    canRedo (applyOp ⟨[], [], [[("CA", ⟨"A", "t"⟩)]]⟩ Op.clear) = false :=
  push_clears_future ⟨[], [], [[("CA", ⟨"A", "t"⟩)]]⟩ Op.clear (by decide)

/-- C6: `removeAssignment` on an absent code still pushes: the new present equals
the old one, the old present is appended to `past` (so `canUndo` holds), and
`future` is cleared. -/
theorem remove_absent_pushes (h : HistoryState) (c : String)
    (hget : getKey h.present c = none) :
    (removeAssignment h c).present = h.present ∧
    (removeAssignment h c).past = takeLast MAX_HISTORY (h.past ++ [h.present]) ∧
    (removeAssignment h c).future = [] ∧
    canUndo (removeAssignment h c) = true := by
  refine ⟨delKey_of_getKey_none h.present c hget, rfl, rfl, ?_⟩
  have h1 : (removeAssignment h c).past.length = min MAX_HISTORY (h.past.length + 1) := by
    simp [removeAssignment, pushState, takeLast_length]
  have h2 : MAX_HISTORY = 50 := rfl
  simp only [canUndo, h1]
  rw [decide_eq_true_eq]
  omega

theorem remove_absent_pushes_witness :
    (removeAssignment demoHistory "ZZ").present = demoHistory.present ∧
    (removeAssignment demoHistory "ZZ").past =
      takeLast MAX_HISTORY (demoHistory.past ++ [demoHistory.present]) ∧
    (removeAssignment demoHistory "ZZ").future = [] ∧
    canUndo (removeAssignment demoHistory "ZZ") = true :=
  remove_absent_pushes demoHistory "ZZ" (by decide)

/-- C7: `updateRepName(old, new)` rewrites `repName` on exactly the entries that
carried `old` (keeping each `assignedAt` and every other entry unchanged) and
pushes exactly one history entry when at least one entry matched; when none
matched it leaves the whole history state unchanged. -/
theorem updateRepName_spec (h : HistoryState) (oldName newName : String) :
    (h.present.any (fun p => p.2.repName == oldName) = true →
      (updateRepName h oldName newName).past =
        takeLast MAX_HISTORY (h.past ++ [h.present]) ∧
      (updateRepName h oldName newName).future = [] ∧
      ∀ c, getKey (updateRepName h oldName newName).present c =
        (getKey h.present c).map (fun a =>
          if a.repName = oldName then ⟨newName, a.assignedAt⟩ else a)) ∧
    (h.present.any (fun p => p.2.repName == oldName) = false →
      updateRepName h oldName newName = h) := by
  constructor
  · intro hc
    have hu : updateRepName h oldName newName =
        pushState h (h.present.map (fun p =>
          if p.2.repName == oldName then (p.1, ⟨newName, p.2.assignedAt⟩) else p)) := by
      simp only [updateRepName, hc, if_true]
    refine ⟨by rw [hu]; rfl, by rw [hu]; rfl, ?_⟩
    intro c
    rw [hu]
    exact getKey_map_rename h.present oldName newName c
  · intro hc
    simp [updateRepName, hc]

theorem updateRepName_spec_witness :
    getKey (updateRepName demoHistory "Bob" "Robert").present "CA" =
      some ⟨"Robert", "t0"⟩ ∧
    (updateRepName demoHistory "Bob" "Robert").past =
      takeLast MAX_HISTORY (demoHistory.past ++ [demoHistory.present]) := by
  have hx := (updateRepName_spec demoHistory "Bob" "Robert").1 (by decide)
  refine ⟨?_, hx.1⟩
  rw [hx.2.2 "CA"]
  decide

/-! ### A model of parsed JSON values, for the import/storage utilities

`JSON.parse` results are dynamic values; the import and load code inspects
them with `typeof`-style checks.  Truthiness follows JavaScript: `null`,
`false`, `0` and `""` are falsy, every object and array is truthy. -/

inductive Json where
  | null
  | bool (b : Bool)
  | num (n : Int)
  | str (s : String)
  | arr (elems : List Json)
  | obj (fields : List (String × Json))

/-- JS truthiness of a JSON value. -/
def Json.truthy : Json → Bool
  | .null => false
  | .bool b => b
  | .num n => n != 0
  | .str s => s != ""
  | .arr _ => true
  | .obj _ => true

/-- `typeof v === 'object' && v !== null` (arrays are objects in JS). -/
def Json.isObjectLike : Json → Bool
  | .arr _ => true
  | .obj _ => true
  | _ => false

/-- Property read `v[k]` on a parsed JSON value (`undefined` becomes `none`;
only objects carry named properties here). -/
def Json.getField : Json → String → Option Json
  | .obj fields, k => getKey fields k
  | _, _ => none

/-- `'k' in v` for a parsed JSON value. -/
def Json.hasField : Json → String → Bool
  | .obj fields, k => fields.any (fun p => p.1 == k)
  | _, _ => false

/-- `Object.entries(v)`: an object's entries in order; an array's elements
keyed by their stringified index; a string's characters likewise; primitives
have no enumerable entries. -/
def Json.entries : Json → List (String × Json)
  | .obj fields => fields
  | .arr xs => xs.enum.map (fun p => (toString p.1, p.2))
  | .str s => s.toList.enum.map (fun p => (toString p.1, Json.str (String.singleton p.2)))
  | _ => []

/-- A validated import entry.  `assignedAt` stays a raw JSON value: the source
writes `v.assignedAt || now`, which keeps whatever truthy value was present
(even a non-string) and substitutes the fresh timestamp otherwise. -/
structure ImportedAssignment where
  repName : String
  assignedAt : Json

/-- The result shape of `parseImportedJSON`. -/
structure ParseResult where
  assignments : List (String × ImportedAssignment)
  error : Option String

/-- One iteration of the validation loop of `parseImportedJSON`
(`mapExporter.ts`): keep the entry iff its value is a non-null object with a
string `repName`; `assignedAt` is `v.assignedAt || now`. -/
def importStep (now : String) (validated : List (String × ImportedAssignment))
    (p : String × Json) : List (String × ImportedAssignment) :=
  if p.2.isObjectLike && p.2.hasField "repName" then
    match p.2.getField "repName" with
    | some (.str rep) =>
      setKey validated p.1
        { repName := rep
          assignedAt :=
            match p.2.getField "assignedAt" with
            | some a => if a.truthy then a else .str now
            | none => .str now }
    | _ => validated
  else validated

/-- The validation loop of `parseImportedJSON`, building `validated` entry by entry. -/
def validateEntries (es : List (String × Json)) (now : String) :
    List (String × ImportedAssignment) :=
  es.foldl (importStep now) []

/-- Truthiness of a possibly-`undefined` property. -/
def truthyOpt : Option Json → Bool
  | some j => j.truthy
  | none => false

/-- `parseImportedJSON` from `mapExporter.ts`, applied to the parsed JSON of the
file (`data`): envelope branch when `data.version && data.assignments` is truthy,
bare-map branch for any other non-null object, error otherwise.  (A `null` or
primitive top-level value ends in the error branch, as in the source where it is
either caught or rejected as `Invalid file format`.) -/
def parseImportedJSON (data : Json) (now : String) : ParseResult :=
  if truthyOpt (data.getField "version") && truthyOpt (data.getField "assignments") then
    { assignments := validateEntries ((data.getField "assignments").getD .null).entries now
      error := none }
  else if data.isObjectLike then
    { assignments := validateEntries data.entries now, error := none }
  else
    { assignments := [], error := some "Invalid file format" }

/-- Pointwise reading of the validation condition: an entry value contributes
iff it is an object whose `repName` property is a string, and then its
`assignedAt` is the stored value when truthy, the fresh timestamp otherwise. -/
def validEntrySpec (now : String) (v : Json) : Option ImportedAssignment :=
  match v.getField "repName" with
  | some (.str rep) =>
    some { repName := rep
           assignedAt :=
             match v.getField "assignedAt" with
             | some a => if a.truthy then a else .str now
             | none => .str now }
  | _ => none

/-- The persisted-storage read outcome: the key can be absent, hold a string
that fails `JSON.parse` (the catch path), or parse to a JSON value. -/
inductive StoredValue where
  | missing
  | unparseable
  | parsed (j : Json)

/-- `loadFromStorage` from `useAssignments.ts`: absent or unparseable storage
falls back to `{}`; a parsed value is kept iff it is a non-null object
(`typeof parsed === 'object' && parsed !== null`), with no per-entry check.
The function is total: the source's `try`/`catch` means the load never throws. -/
def loadFromStorage : StoredValue → Json
  | .missing => .obj []
  | .unparseable => .obj []
  | .parsed j => if j.isObjectLike then j else .obj []

/-- Modelled from the spec: a well-formed persisted `TerritoryAssignments`
value is an object each of whose values is an object with string `repName`
and string `assignedAt` (§6, persisted state layout). -/
def isAssignmentShape : Json → Bool
  | .obj fields =>
    (match getKey fields "repName" with | some (.str _) => true | _ => false) &&
    (match getKey fields "assignedAt" with | some (.str _) => true | _ => false)
  | _ => false

/-- Modelled from the spec: well-formedness of a whole persisted assignments map. -/
def wellFormedTA : Json → Bool
  | .obj fields => fields.all (fun p => isAssignmentShape p.2)
  | _ => false

theorem getKey_isSome_eq_any (m : List (String × α)) (k : String) :
    (getKey m k).isSome = m.any (fun p => p.1 == k) := by
  induction m with
  | nil => rfl
  | cons q t ih =>
    cases hb : (q.1 == k) with
    | true => simp [getKey, hb]
    | false => simp [getKey, hb, ih]

theorem importStep_eq (now : String) (validated : List (String × ImportedAssignment))
    (p : String × Json) :
    importStep now validated p =
      match validEntrySpec now p.2 with
      | some ia => setKey validated p.1 ia
      | none => validated := by
  obtain ⟨c, v⟩ := p
  cases v with
  | null => rfl
  | bool b => rfl
  | num n => rfl
  | str s => rfl
  | arr xs => rfl
  | obj fields =>
    cases hf : fields.any (fun q => q.1 == "repName") with
    | false =>
      have hg : getKey fields "repName" = none := by
        cases hgc : getKey fields "repName" with
        | none => rfl
        | some w =>
          have hs := getKey_isSome_eq_any fields "repName"
          rw [hgc, hf] at hs
          simp at hs
      simp [importStep, Json.isObjectLike, Json.hasField, hf, validEntrySpec,
        Json.getField, hg]
    | true =>
      cases hg : getKey fields "repName" with
      | none =>
        simp [importStep, Json.isObjectLike, Json.hasField, hf, validEntrySpec,
          Json.getField, hg]
      | some w =>
        cases w <;>
          simp [importStep, Json.isObjectLike, Json.hasField, hf, validEntrySpec,
            Json.getField, hg]

theorem getKey_foldl_importStep (es : List (String × Json)) (now : String) (c : String)
    (hnd : KeysNodup es) :
    ∀ acc, getKey (es.foldl (importStep now) acc) c =
      match getKey es c with
      | some v =>
        match validEntrySpec now v with
        | some ia => some ia
        | none => getKey acc c
      | none => getKey acc c := by
  induction es with
  | nil => intro acc; rfl
  | cons p rest ih =>
    intro acc
    have hnd' : p.1 ∉ rest.map Prod.fst ∧ KeysNodup rest := by
      simpa [KeysNodup] using hnd
    simp only [List.foldl_cons]
    rw [importStep_eq]
    by_cases hb : p.1 = c
    · subst hb
      have hrest : getKey rest p.1 = none :=
        getKey_eq_none_of_not_mem_keys rest p.1 hnd'.1
      cases hspec : validEntrySpec now p.2 with
      | some ia =>
        rw [ih hnd'.2 (setKey acc p.1 ia), hrest]
        simp [getKey, hspec, getKey_setKey_self]
      | none =>
        rw [ih hnd'.2 acc, hrest]
        simp [getKey, hspec]
    · have hb' : (p.1 == c) = false := beq_eq_false_iff_ne.mpr hb
      cases hspec : validEntrySpec now p.2 with
      | some ia =>
        rw [ih hnd'.2 (setKey acc p.1 ia)]
        have hset : getKey (setKey acc p.1 ia) c = getKey acc c :=
          getKey_setKey_ne acc p.1 c ia (fun h => hb h.symm)
        cases hrc : getKey rest c with
        | none => simp [getKey, hb', hrc, hset]
        | some v => simp [getKey, hb', hrc, hset]
      | none =>
        rw [ih hnd'.2 acc]
        simp [getKey, hb']

/-- C8 counterexample: an entry whose `assignedAt` is *present* but equal to the
empty string (a falsy value) does not keep it — `v.assignedAt || now` replaces
it with the fresh timestamp, so validation does not preserve every present
`assignedAt`. -/
theorem parseImportedJSON_empty_assignedAt_cex :
    (Json.obj [("repName", Json.str "A"), ("assignedAt", Json.str "")]).getField
        "assignedAt" = some (Json.str "") ∧
    getKey (parseImportedJSON
        (Json.obj [("CA",
          Json.obj [("repName", Json.str "A"), ("assignedAt", Json.str "")])])
        "T").assignments "CA" = some ⟨"A", Json.str "T"⟩ ∧
    Json.str "T" ≠ Json.str "" := by
  refine ⟨rfl, rfl, ?_⟩
  intro h
  injection h with h'
  exact absurd h' (by decide)

/-- C8 (amended): `parseImportedJSON` accepts the envelope shape (truthy
`version` and `assignments` properties) and the bare-map shape (any other
non-null object), without an error; the validated result is, pointwise, exactly
the entries whose value is an object with a string `repName` — keeping
`assignedAt` when it is present and truthy, stamping the fresh timestamp when it
is missing or falsy — and every other entry is dropped silently. -/
theorem parseImportedJSON_spec (data : Json) (now : String) :
    ((truthyOpt (data.getField "version") &&
        truthyOpt (data.getField "assignments")) = true →
      (parseImportedJSON data now).error = none ∧
      ∀ j, data.getField "assignments" = some j → KeysNodup j.entries →
        ∀ c, getKey (parseImportedJSON data now).assignments c =
          (getKey j.entries c).bind (validEntrySpec now)) ∧
    ((truthyOpt (data.getField "version") &&
        truthyOpt (data.getField "assignments")) = false →
      data.isObjectLike = true →
      (parseImportedJSON data now).error = none ∧
      (KeysNodup data.entries →
        ∀ c, getKey (parseImportedJSON data now).assignments c =
          (getKey data.entries c).bind (validEntrySpec now))) := by
  constructor
  · intro henv
    have hp : parseImportedJSON data now =
        { assignments :=
            validateEntries ((data.getField "assignments").getD .null).entries now
          error := none } := by
      simp [parseImportedJSON, henv]
    refine ⟨by rw [hp], ?_⟩
    intro j hj hnd c
    rw [hp]
    show getKey
      (validateEntries ((data.getField "assignments").getD .null).entries now) c = _
    rw [hj]
    show getKey (validateEntries j.entries now) c = _
    rw [validateEntries, getKey_foldl_importStep j.entries now c hnd []]
    cases hv : getKey j.entries c with
    | none => rfl
    | some v =>
      cases hs : validEntrySpec now v with
      | none => simp [hs, getKey]
      | some ia => simp [hs]
  · intro henv hobj
    have hp : parseImportedJSON data now =
        { assignments := validateEntries data.entries now, error := none } := by
      simp [parseImportedJSON, henv, hobj]
    refine ⟨by rw [hp], ?_⟩
    intro hnd c
    rw [hp]
    show getKey (validateEntries data.entries now) c = _
    rw [validateEntries, getKey_foldl_importStep data.entries now c hnd []]
    cases hv : getKey data.entries c with
    | none => rfl
    | some v =>
      cases hs : validEntrySpec now v with
      | none => simp [hs, getKey]
      | some ia => simp [hs]

/-- A concrete versioned envelope, for the import witness. -/
def dataEnvelope : Json :=
  Json.obj [("version", Json.str "2.0"),
    ("assignments", Json.obj [("CA",
      Json.obj [("repName", Json.str "A"), ("assignedAt", Json.str "t0")])])]

theorem parseImportedJSON_spec_witness :
    (parseImportedJSON dataEnvelope "T").error = none ∧
    getKey (parseImportedJSON dataEnvelope "T").assignments "CA" =
      (getKey (Json.obj [("CA",
        Json.obj [("repName", Json.str "A"), ("assignedAt", Json.str "t0")])]).entries
          "CA").bind (validEntrySpec "T") :=
  ⟨((parseImportedJSON_spec dataEnvelope "T").1 rfl).1,
   ((parseImportedJSON_spec dataEnvelope "T").1 rfl).2
     (Json.obj [("CA",
       Json.obj [("repName", Json.str "A"), ("assignedAt", Json.str "t0")])])
     rfl (by decide) "CA"⟩

/-- C9 counterexample: a stored JSON *object* whose entries are not well-formed
assignments (here `CA ↦ 5`) is returned as-is by `loadFromStorage` — the
malformed stored value does not yield the empty map, because the load only
checks `typeof parsed === 'object'`, never the entries. -/
theorem loadFromStorage_malformed_cex :
    wellFormedTA (Json.obj [("CA", Json.num 5)]) = false ∧
    loadFromStorage (.parsed (Json.obj [("CA", Json.num 5)])) =
      Json.obj [("CA", Json.num 5)] ∧
    loadFromStorage (.parsed (Json.obj [("CA", Json.num 5)])) ≠ Json.obj [] := by
  refine ⟨rfl, rfl, ?_⟩
  intro h
  rw [show loadFromStorage (.parsed (Json.obj [("CA", Json.num 5)])) =
      Json.obj [("CA", Json.num 5)] from rfl] at h
  injection h with h'
  exact List.cons_ne_nil _ _ h'

/-- C9 (amended): loading is fail-soft and total — a missing, unparseable, or
non-object stored value yields the empty map and never throws; but a stored
JSON object (or array) is returned as-is, even when its entries are not
well-formed assignments: validation is object-level only. -/
theorem loadFromStorage_fail_soft (j : Json) :
    loadFromStorage .missing = Json.obj [] ∧
    loadFromStorage .unparseable = Json.obj [] ∧
    (j.isObjectLike = false → loadFromStorage (.parsed j) = Json.obj []) ∧
    (j.isObjectLike = true → loadFromStorage (.parsed j) = j) := by
  refine ⟨rfl, rfl, ?_, ?_⟩
  · intro h
    simp [loadFromStorage, h]
  · intro h
    simp [loadFromStorage, h]

theorem loadFromStorage_fail_soft_witness :
    loadFromStorage (.parsed (Json.str "oops")) = Json.obj [] ∧
    loadFromStorage (.parsed (Json.obj [("CA", Json.num 5)])) =
      Json.obj [("CA", Json.num 5)] :=
  ⟨(loadFromStorage_fail_soft (Json.str "oops")).2.2.1 rfl,
   (loadFromStorage_fail_soft (Json.obj [("CA", Json.num 5)])).2.2.2 rfl⟩

/-! ### The JSON export metadata (`exportAssignmentsAsJSON` in `mapExporter.ts`) -/

/-- `SalesRep` from `src/data/reps.ts`. -/
structure SalesRep where
  id : String
  name : String
  color : String
  territoryName : Option String
deriving DecidableEq, Repr

/-- One element of `metadata.repSummary`. -/
structure RepSummaryEntry where
  name : String
  territoryName : Option String
  count : Nat
deriving DecidableEq, Repr

/-- The `metadata` field of the export envelope. -/
structure ExportMetadata where
  totalStates : Nat
  totalAssigned : Nat
  repSummary : List RepSummaryEntry
deriving DecidableEq, Repr

/-- The `repCounts` map of `exportAssignmentsAsJSON`: built by one pass over
`Object.values(assignments)`, incrementing per `repName`; reading an absent
name gives 0 (`repCounts.get(name) || 0`). -/
def repCountsOf (assignments : TerritoryAssignments) : String → Nat :=
  assignments.foldl
    (fun counts p => fun n => if n == p.2.repName then counts n + 1 else counts n)
    (fun _ => 0)

/-- The number of assignments carrying representative name `n` (specification
vocabulary for `repCountsOf`). -/
def countRep (assignments : TerritoryAssignments) (n : String) : Nat :=
  (assignments.filter (fun p => p.2.repName == n)).length

/-- The metadata of the export envelope built by `exportAssignmentsAsJSON`:
both totals are `Object.keys(assignments).length`, and `repSummary` maps the
roster through `{name, territoryName, count}` keeping only `count > 0`. -/
def exportMetadataOf (assignments : TerritoryAssignments) (reps : List SalesRep) :
    ExportMetadata :=
  let repCounts := repCountsOf assignments
  { totalStates := assignments.length
    totalAssigned := assignments.length
    repSummary :=
      (reps.map (fun r =>
        ({ name := r.name, territoryName := r.territoryName,
           count := repCounts r.name } : RepSummaryEntry))).filter
        (fun r => decide (r.count > 0)) }

theorem repCountsOf_eq_countRep (assignments : TerritoryAssignments) (n : String) :
    repCountsOf assignments n = countRep assignments n := by
  suffices hgen : ∀ (l : TerritoryAssignments) (counts : String → Nat),
      (l.foldl
        (fun counts p => fun m => if m == p.2.repName then counts m + 1 else counts m)
        counts) n = counts n + countRep l n by
    have h0 := hgen assignments (fun _ => 0)
    unfold repCountsOf
    rw [h0]
    simp
  intro l
  induction l with
  | nil => intro counts; simp [countRep]
  | cons p t ih =>
    intro counts
    simp only [List.foldl_cons]
    rw [ih]
    by_cases hr : p.2.repName = n
    · have h1 : (n == p.2.repName) = true := beq_iff_eq.mpr hr.symm
      have h2 : (p.2.repName == n) = true := beq_iff_eq.mpr hr
      simp only [h1, if_true, countRep, List.filter_cons, h2]
      simp [List.length_cons]
      omega
    · have h1 : (n == p.2.repName) = false := beq_eq_false_iff_ne.mpr (fun h => hr h.symm)
      have h2 : (p.2.repName == n) = false := beq_eq_false_iff_ne.mpr hr
      simp only [h1, if_false, countRep, List.filter_cons, h2]
      simp

/-- C10: in the JSON export envelope, `metadata.totalStates` and
`metadata.totalAssigned` are both exactly the number of entries of the
assignments map (assigned regions only, never the region universe), and
`repSummary` lists exactly the roster representatives with a positive
assignment count, each with that count. -/
theorem exportMetadata_spec (assignments : TerritoryAssignments) (reps : List SalesRep) :
    (exportMetadataOf assignments reps).totalStates = assignments.length ∧
    (exportMetadataOf assignments reps).totalAssigned = assignments.length ∧
    (exportMetadataOf assignments reps).repSummary =
      (reps.filter (fun r => decide (0 < countRep assignments r.name))).map
        (fun r => { name := r.name, territoryName := r.territoryName,
                    count := countRep assignments r.name }) := by
  refine ⟨rfl, rfl, ?_⟩
  show (reps.map (fun r =>
      ({ name := r.name, territoryName := r.territoryName,
         count := repCountsOf assignments r.name } : RepSummaryEntry))).filter
      (fun r => decide (r.count > 0)) = _
  have hf : (fun r : SalesRep =>
      ({ name := r.name, territoryName := r.territoryName,
         count := repCountsOf assignments r.name } : RepSummaryEntry)) =
      fun r : SalesRep =>
      ({ name := r.name, territoryName := r.territoryName,
         count := countRep assignments r.name } : RepSummaryEntry) := by
    funext r
    rw [repCountsOf_eq_countRep]
  rw [hf, List.filter_map]
  rfl
